import Mathlib

set_option maxHeartbeats 1000000

/-! Shallow embedding of the `toolbelt` crate (src/lib.rs): the glob-driven
directory copier `copy_dir_with_pattern` and the include-path expander
`get_sdk_include_dirs`.  Filesystem paths are lists of components, the
filesystem is an explicit state threaded through the loops, and the glob
expansion (an external collaborator in the crate) is an oracle supplied as
input.  Fallible OS calls (`create_dir_all`, `copy`) are driven by an
explicit fault model, and `unwrap` / `expect` panics are modelled as a
distinguished outcome. -/

/-- A filesystem path, as its list of components. -/
abbrev FsPath := List String

/-- Filesystem state: the directories that exist, and an association list
from file paths to file contents (newest entry first, so a later write
shadows an earlier one — overwrite semantics). -/
structure FS where
  dirs : List FsPath
  files : List (FsPath × Nat)
deriving DecidableEq, Repr

/-- Lookup in the file association list (first, i.e. newest, entry wins). -/
def lookupFile : List (FsPath × Nat) → FsPath → Option Nat
  | [], _ => none
  | (q, c) :: rest, p => if q = p then some c else lookupFile rest p

/-- The content of the file at `p`, if one exists. -/
def FS.readFile (fs : FS) (p : FsPath) : Option Nat :=
  lookupFile fs.files p

/-- Write content `c` at path `p`, overwriting any existing file there. -/
def FS.writeFile (fs : FS) (p : FsPath) (c : Nat) : FS :=
  { fs with files := (p, c) :: fs.files }

/-- `Path::exists()` at the granularity of this model (directory level). -/
def FS.dirExists (fs : FS) (p : FsPath) : Prop := p ∈ fs.dirs

instance (fs : FS) (p : FsPath) : Decidable (fs.dirExists p) := by
  unfold FS.dirExists
  infer_instance

/-- All nonempty ancestors of a path, the path itself included. -/
def prefixesOf (p : FsPath) : List FsPath :=
  (List.range p.length).map (fun i => p.take (i + 1))

/-- Create directory `p` together with every ancestor. -/
def FS.mkdirs (fs : FS) (p : FsPath) : FS :=
  { fs with dirs := fs.dirs ++ prefixesOf p }

/-- Which OS calls fail during one run: the environment's fault model. -/
structure FaultModel where
  createFails : FsPath → Bool
  copyFails : FsPath → FsPath → Bool

/-- `std::fs::create_dir_all`: succeeds as a no-op when the directory already
exists, otherwise either fails (per the fault model) or creates the
directory and all of its missing ancestors. -/
def createDirAll (fm : FaultModel) (fs : FS) (p : FsPath) : Option FS :=
  if fs.dirExists p then some fs
  else if fm.createFails p then none
  else some (fs.mkdirs p)

/-- `std::fs::copy src dst`: fails per the fault model or when the source
file is unreadable; otherwise overwrites `dst` with the content of `src`. -/
def copyFile (fm : FaultModel) (fs : FS) (src dst : FsPath) : Option FS :=
  if fm.copyFails src dst then none
  else
    match fs.readFile src with
    | none => none
    | some c => some (fs.writeFile dst c)

/-- `entry.path().strip_prefix(&source_path)` followed by
`set_file_name("")` (lib.rs:47-52): the matched entry's containing
directory, relative to the canonical source. -/
def relSubPath (source_path entry : FsPath) : FsPath :=
  (entry.drop source_path.length).dropLast

/-- `destination_path.join(destination_sub_path)` (lib.rs:53). -/
def destDirOf (source_path destination_path entry : FsPath) : FsPath :=
  destination_path ++ relSubPath source_path entry

/-- `complete_destination_path.join(&entry.file_name())` (lib.rs:63). -/
def destFileOf (source_path destination_path entry : FsPath) : FsPath :=
  destDirOf source_path destination_path entry ++ [entry.getLastD ""]

/-- Outcome of the copier: Rust panic (an `unwrap`/`expect` failure), an
`Err` result, or `Ok(())`; each carries the filesystem at that point. -/
inductive CopyResult where
  | panicked (fs : FS)
  | error (fs : FS)
  | ok (fs : FS)
deriving DecidableEq, Repr

/-- The filesystem state when the copier stops, whatever the outcome. -/
def CopyResult.fs : CopyResult → FS
  | .panicked fs => fs
  | .error fs => fs
  | .ok fs => fs

/-- Outcome of the copy loop, with the `existing_paths` vector exposed on
success so that runs compose. -/
inductive LoopOut where
  | panicked (fs : FS)
  | error (fs : FS)
  | ok (existing_paths : List FsPath) (fs : FS)
deriving DecidableEq, Repr

/-- The filesystem state when the loop stops, whatever the outcome. -/
def LoopOut.fs : LoopOut → FS
  | .panicked fs => fs
  | .error fs => fs
  | .ok _ fs => fs

/-- Forget the `existing_paths` vector, which `copy_dir_with_pattern`
discards when it returns. -/
def LoopOut.toResult : LoopOut → CopyResult
  | .panicked fs => .panicked fs
  | .error fs => .error fs
  | .ok _ fs => .ok fs

/-- Lines 55-61 of lib.rs: if the complete destination path is not yet in
`existing_paths`, record it and, when it does not exist on disk, create it
(with all intermediate directories).  `none` models the `?` propagating a
directory-creation error. -/
def copyStepDirs (fm : FaultModel) (existing_paths : List FsPath) (fs : FS)
    (complete_destination_path : FsPath) : Option (List FsPath × FS) :=
  if complete_destination_path ∈ existing_paths then some (existing_paths, fs)
  else
    if fs.dirExists complete_destination_path then
      some (existing_paths ++ [complete_destination_path], fs)
    else
      match createDirAll fm fs complete_destination_path with
      | none => none
      | some fs1 => some (existing_paths ++ [complete_destination_path], fs1)

/-- The `for entry in globwalk::glob(..).unwrap().flatten()` loop of
`copy_dir_with_pattern` (lib.rs:43-65), over the already-flattened entry
list.  `strip_prefix(..).unwrap()` on an entry outside the canonical source
is a panic. -/
def copyLoop (fm : FaultModel) (source_path destination_path : FsPath) :
    List FsPath → List FsPath → FS → LoopOut
  | [], existing_paths, fs => .ok existing_paths fs
  | entry :: rest, existing_paths, fs =>
    if source_path.isPrefixOf entry then
      match copyStepDirs fm existing_paths fs
          (destDirOf source_path destination_path entry) with
      | none => .error fs
      | some (ex1, fs1) =>
        match copyFile fm fs1 entry
            (destFileOf source_path destination_path entry) with
        | none => .error fs1
        | some fs2 => copyLoop fm source_path destination_path rest ex1 fs2
    else .panicked fs

/-- The environment of one `copy_dir_with_pattern` call: the result of
`PathBuf::from(&source).canonicalize()` (`none` = failure, which the code
`unwrap`s), whether `globwalk::glob(..)` parsed the pattern (`unwrap`red),
and the glob walk's yielded entries (`none` = a per-entry walk error,
which `.flatten()` discards). -/
structure GlobEnv where
  canonical : Option FsPath
  parseOk : Bool
  entries : List (Option FsPath)

/-- `copy_dir_with_pattern` (lib.rs:32-67), with the glob environment and
fault model made explicit. -/
def copy_dir_with_pattern (fm : FaultModel) (env : GlobEnv)
    (destination : FsPath) (fs : FS) : CopyResult :=
  match env.canonical with
  | none => .panicked fs
  | some source_path =>
    if env.parseOk then
      (copyLoop fm source_path destination (env.entries.filterMap id) [] fs).toResult
    else .panicked fs

/-- Modelled from the spec: the naive loop variant that unconditionally
performs idempotent create-if-missing directory creation for every matched
entry, with no Destination Directory Set. -/
def copyLoopNaive (fm : FaultModel) (source_path destination_path : FsPath) :
    List FsPath → FS → CopyResult
  | [], fs => .ok fs
  | entry :: rest, fs =>
    if source_path.isPrefixOf entry then
      match createDirAll fm fs (destDirOf source_path destination_path entry) with
      | none => .error fs
      | some fs1 =>
        match copyFile fm fs1 entry
            (destFileOf source_path destination_path entry) with
        | none => .error fs1
        | some fs2 => copyLoopNaive fm source_path destination_path rest fs2
    else .panicked fs

/-- Modelled from the spec: `copy_dir_with_pattern` built on the naive loop,
for the refinement comparison. -/
def copy_dir_with_pattern_naive (fm : FaultModel) (env : GlobEnv)
    (destination : FsPath) (fs : FS) : CopyResult :=
  match env.canonical with
  | none => .panicked fs
  | some source_path =>
    if env.parseOk then
      copyLoopNaive fm source_path destination (env.entries.filterMap id) fs
    else .panicked fs

/-- Output mode of the include-path expander (lib.rs:209-212). -/
inductive IncludeDirFormat where
  | PLAIN
  | CLANG
deriving DecidableEq, Repr

/-- `PathBuf::join` on displayed paths: an absolute right operand replaces
the left one, otherwise the components are joined with a separator (none
added when the left side is empty or already ends in one). -/
def pathJoinStr (a b : String) : String :=
  if b.data.head? = some '/' then b
  else if a = "" then b
  else if a.data.getLast? = some '/' then a ++ b
  else a ++ "/" ++ b

/-- `format!("-I{}", ..)` versus `format!("{}", ..)` (lib.rs:259-264). -/
def formatDir : IncludeDirFormat → String → String
  | .CLANG, s => "-I" ++ s
  | .PLAIN, s => s

/-- The nested loops of `get_sdk_include_dirs` (lib.rs:252-269), with
`incl_dirs` as the accumulator.  The oracle `expand` models
`glob_with(&format!("{}{}", sdk_path, hdir), options)`: outer `none` is a
pattern-parse failure (which the code turns into a panic via `expect`),
and an inner `none` is an `Err(e)` match that is printed and skipped. -/
def includeDirsGo (expand : String → Option (List (Option String)))
    (sdk_path : String) (fmt : IncludeDirFormat) :
    List String → List String → Option (List String)
  | [], incl_dirs => some incl_dirs
  | hdir :: rest, incl_dirs =>
    match expand (sdk_path ++ hdir) with
    | none => none
    | some entries =>
      includeDirsGo expand sdk_path fmt rest
        (incl_dirs ++ entries.filterMap (fun e =>
          e.map (fun path => formatDir fmt (pathJoinStr sdk_path path))))

/-- `get_sdk_include_dirs` (lib.rs:234-272): `none` models the `expect`
panic on a malformed pattern, `some` the returned vector. -/
def get_sdk_include_dirs (expand : String → Option (List (Option String)))
    (sdk_header_dirs : List String) (sdk_path : String)
    (fmt : IncludeDirFormat) : Option (List String) :=
  includeDirsGo expand sdk_path fmt sdk_header_dirs []

/-- A path in the Destination Directory Set is one on which a repeated
`create_dir_all` is guaranteed to be a successful no-op: it exists on disk,
or it is the empty path (on which our `mkdirs` creates nothing) and the
fault model does not fail it. -/
def DirIdem (fm : FaultModel) (fs : FS) (p : FsPath) : Prop :=
  fs.dirExists p ∨ (p = [] ∧ fm.createFails [] = false)

/-! ### Basic facts about the filesystem model -/

theorem readFile_writeFile_self (fs : FS) (p : FsPath) (c : Nat) :
    (fs.writeFile p c).readFile p = some c := by
  simp [FS.readFile, FS.writeFile, lookupFile]

theorem readFile_writeFile_ne (fs : FS) (p q : FsPath) (c : Nat) (h : p ≠ q) :
    (fs.writeFile p c).readFile q = fs.readFile q := by
  simp [FS.readFile, FS.writeFile, lookupFile, h]

theorem readFile_mkdirs (fs : FS) (p q : FsPath) :
    (fs.mkdirs p).readFile q = fs.readFile q := rfl

theorem dirs_writeFile (fs : FS) (p : FsPath) (c : Nat) :
    (fs.writeFile p c).dirs = fs.dirs := rfl

theorem dirs_mkdirs (fs : FS) (p : FsPath) :
    (fs.mkdirs p).dirs = fs.dirs ++ prefixesOf p := rfl

theorem mkdirs_nil (fs : FS) : fs.mkdirs [] = fs := by
  simp [FS.mkdirs, prefixesOf]

theorem take_isPrefixOf (p : FsPath) (n : Nat) : (p.take n).isPrefixOf p = true := by
  induction p generalizing n with
  | nil => simp [List.isPrefixOf]
  | cons a t ih =>
    cases n with
    | zero => simp [List.isPrefixOf]
    | succ m => simp [List.isPrefixOf, ih]

theorem isPrefixOf_append_self (d r : FsPath) : d.isPrefixOf (d ++ r) = true := by
  induction d with
  | nil => simp [List.isPrefixOf]
  | cons a t ih => simp [List.isPrefixOf, ih]

theorem mem_prefixesOf (q p : FsPath) (h : q ∈ prefixesOf p) :
    q.isPrefixOf p = true := by
  simp only [prefixesOf, List.mem_map, List.mem_range] at h
  obtain ⟨i, _, rfl⟩ := h
  exact take_isPrefixOf p (i + 1)

theorem self_mem_prefixesOf (p : FsPath) (h : p ≠ []) : p ∈ prefixesOf p := by
  have hl : 0 < p.length := List.length_pos.mpr h
  simp only [prefixesOf, List.mem_map, List.mem_range]
  exact ⟨p.length - 1, by omega, by rw [Nat.sub_add_cancel hl, List.take_length]⟩

theorem dirExists_of_append (fs fs1 : FS) (l : List FsPath) (p : FsPath)
    (hd : fs1.dirs = fs.dirs ++ l) (h : fs.dirExists p) : fs1.dirExists p := by
  unfold FS.dirExists at *
  rw [hd]
  exact List.mem_append_left _ h

theorem dirIdem_of_append (fm : FaultModel) (fs fs1 : FS) (l : List FsPath)
    (p : FsPath) (hd : fs1.dirs = fs.dirs ++ l) (h : DirIdem fm fs p) :
    DirIdem fm fs1 p := by
  cases h with
  | inl h => exact Or.inl (dirExists_of_append fs fs1 l p hd h)
  | inr h => exact Or.inr h

/-! ### Facts about the fallible OS-call models -/

theorem createDirAll_of_dirIdem (fm : FaultModel) (fs : FS) (p : FsPath)
    (h : DirIdem fm fs p) : createDirAll fm fs p = some fs := by
  cases h with
  | inl h => simp [createDirAll, h]
  | inr h =>
    obtain ⟨rfl, hc⟩ := h
    by_cases he : fs.dirExists []
    · simp [createDirAll, he]
    · simp [createDirAll, he, hc, mkdirs_nil]

theorem createDirAll_some (fm : FaultModel) (fs : FS) (p : FsPath) (fs1 : FS)
    (h : createDirAll fm fs p = some fs1) :
    fs1.files = fs.files ∧ ∃ l, fs1.dirs = fs.dirs ++ l ∧ ∀ q ∈ l, q ∈ prefixesOf p := by
  unfold createDirAll at h
  split at h
  · cases h
    exact ⟨rfl, [], by simp, by simp⟩
  · split at h
    · cases h
    · cases h
      exact ⟨rfl, prefixesOf p, rfl, fun q hq => hq⟩

theorem dirIdem_createDirAll (fm : FaultModel) (fs : FS) (p : FsPath) (fs1 : FS)
    (h : createDirAll fm fs p = some fs1) : DirIdem fm fs1 p := by
  unfold createDirAll at h
  by_cases he : fs.dirExists p
  · rw [if_pos he] at h
    cases h
    exact Or.inl he
  · rw [if_neg he] at h
    by_cases hc : fm.createFails p = true
    · rw [if_pos hc] at h
      cases h
    · rw [if_neg hc] at h
      cases h
      rcases eq_or_ne p [] with rfl | hp
      · exact Or.inr ⟨rfl, by simpa using hc⟩
      · exact Or.inl (by
          unfold FS.dirExists
          rw [dirs_mkdirs]
          exact List.mem_append_right _ (self_mem_prefixesOf p hp))

theorem copyFile_some (fm : FaultModel) (fs : FS) (src dst : FsPath) (fs2 : FS)
    (h : copyFile fm fs src dst = some fs2) :
    ∃ c, fs.readFile src = some c ∧ fs2 = fs.writeFile dst c := by
  unfold copyFile at h
  split at h
  · cases h
  · split at h
    · cases h
    · cases h
      exact ⟨_, by assumption, rfl⟩

theorem dirIdem_writeFile (fm : FaultModel) (fs : FS) (q : FsPath) (c : Nat)
    (p : FsPath) (h : DirIdem fm fs p) : DirIdem fm (fs.writeFile q c) p :=
  dirIdem_of_append fm fs (fs.writeFile q c) [] p (by simp [dirs_writeFile]) h

theorem copyStepDirs_some (fm : FaultModel) (ex : List FsPath) (fs : FS)
    (cdp : FsPath) (ex1 : List FsPath) (fs1 : FS)
    (h : copyStepDirs fm ex fs cdp = some (ex1, fs1)) :
    fs1.files = fs.files
    ∧ (∃ l, fs1.dirs = fs.dirs ++ l ∧ ∀ q ∈ l, q ∈ prefixesOf cdp)
    ∧ (ex1 = ex ∨ ex1 = ex ++ [cdp]) := by
  unfold copyStepDirs at h
  split at h
  · cases h
    exact ⟨rfl, ⟨[], by simp, by simp⟩, Or.inl rfl⟩
  · split at h
    · cases h
      exact ⟨rfl, ⟨[], by simp, by simp⟩, Or.inr rfl⟩
    · cases hc : createDirAll fm fs cdp with
      | none =>
        rw [hc] at h
        cases h
      | some fs' =>
        rw [hc] at h
        cases h
        obtain ⟨hf, l, hd, hl⟩ := createDirAll_some fm fs cdp _ hc
        exact ⟨hf, ⟨l, hd, hl⟩, Or.inr rfl⟩

theorem copyStepDirs_vs_createDirAll (fm : FaultModel) (ex : List FsPath)
    (fs : FS) (cdp : FsPath) (hinv : ∀ p ∈ ex, DirIdem fm fs p) :
    (copyStepDirs fm ex fs cdp = none ∧ createDirAll fm fs cdp = none)
    ∨ ∃ ex1 fs1, copyStepDirs fm ex fs cdp = some (ex1, fs1)
        ∧ createDirAll fm fs cdp = some fs1
        ∧ cdp ∈ ex1
        ∧ ∀ p ∈ ex1, DirIdem fm fs1 p := by
  unfold copyStepDirs
  by_cases hmem : cdp ∈ ex
  · rw [if_pos hmem]
    exact Or.inr ⟨ex, fs, rfl,
      createDirAll_of_dirIdem fm fs cdp (hinv cdp hmem), hmem, hinv⟩
  · rw [if_neg hmem]
    by_cases he : fs.dirExists cdp
    · rw [if_pos he]
      refine Or.inr ⟨ex ++ [cdp], fs, rfl, by simp [createDirAll, he],
        by simp, ?_⟩
      intro p hp
      rcases List.mem_append.mp hp with hp | hp
      · exact hinv p hp
      · simp at hp
        subst hp
        exact Or.inl he
    · rw [if_neg he]
      cases hc : createDirAll fm fs cdp with
      | none => exact Or.inl ⟨rfl, rfl⟩
      | some fs1 =>
        refine Or.inr ⟨ex ++ [cdp], fs1, rfl, rfl, by simp, ?_⟩
        intro p hp
        obtain ⟨hf, l, hd, hl⟩ := createDirAll_some fm fs cdp fs1 hc
        rcases List.mem_append.mp hp with hp | hp
        · exact dirIdem_of_append fm fs fs1 l p hd (hinv p hp)
        · simp at hp
          rw [hp]
          exact dirIdem_createDirAll fm fs cdp fs1 hc

theorem copyLoop_append_eq (fm : FaultModel) (s d : FsPath)
    (l₁ l₂ ex : List FsPath) (fs : FS) :
    copyLoop fm s d (l₁ ++ l₂) ex fs =
      match copyLoop fm s d l₁ ex fs with
      | .ok ex1 fs1 => copyLoop fm s d l₂ ex1 fs1
      | .error fs1 => .error fs1
      | .panicked fs1 => .panicked fs1 := by
  induction l₁ generalizing ex fs with
  | nil => simp [copyLoop]
  | cons e t ih =>
    by_cases hp : s.isPrefixOf e = true
    · simp only [List.cons_append, copyLoop, hp, if_true]
      cases copyStepDirs fm ex fs (destDirOf s d e) with
      | none => rfl
      | some pr =>
        cases pr with
        | mk ex1 fs1 =>
          dsimp only
          cases copyFile fm fs1 e (destFileOf s d e) with
          | none => rfl
          | some fs2 =>
            dsimp only
            exact ih ex1 fs2
    · simp [copyLoop, hp]

theorem copyLoop_cons_not_pre (fm : FaultModel) (s d e : FsPath)
    (t ex : List FsPath) (fs : FS) (h : s.isPrefixOf e = false) :
    copyLoop fm s d (e :: t) ex fs = .panicked fs := by
  simp [copyLoop, h]

theorem copyLoop_cons_pre (fm : FaultModel) (s d e : FsPath)
    (t ex : List FsPath) (fs : FS) (h : s.isPrefixOf e = true) :
    copyLoop fm s d (e :: t) ex fs =
      match copyStepDirs fm ex fs (destDirOf s d e) with
      | none => .error fs
      | some (ex1, fs1) =>
        match copyFile fm fs1 e (destFileOf s d e) with
        | none => .error fs1
        | some fs2 => copyLoop fm s d t ex1 fs2 := by
  simp [copyLoop, h]

theorem copyLoopNaive_cons_not_pre (fm : FaultModel) (s d e : FsPath)
    (t : List FsPath) (fs : FS) (h : s.isPrefixOf e = false) :
    copyLoopNaive fm s d (e :: t) fs = .panicked fs := by
  simp [copyLoopNaive, h]

theorem copyLoopNaive_cons_pre (fm : FaultModel) (s d e : FsPath)
    (t : List FsPath) (fs : FS) (h : s.isPrefixOf e = true) :
    copyLoopNaive fm s d (e :: t) fs =
      match createDirAll fm fs (destDirOf s d e) with
      | none => .error fs
      | some fs1 =>
        match copyFile fm fs1 e (destFileOf s d e) with
        | none => .error fs1
        | some fs2 => copyLoopNaive fm s d t fs2 := by
  simp [copyLoopNaive, h]

theorem copyLoop_readFile_frame (fm : FaultModel) (s d : FsPath)
    (entries : List FsPath) :
    ∀ (ex : List FsPath) (fs : FS) (p : FsPath),
      (∀ e ∈ entries, destFileOf s d e ≠ p) →
      ((copyLoop fm s d entries ex fs).fs).readFile p = fs.readFile p := by
  induction entries with
  | nil =>
    intro ex fs p _
    rfl
  | cons e t ih =>
    intro ex fs p hp
    cases hpre : s.isPrefixOf e with
    | false =>
      rw [copyLoop_cons_not_pre fm s d e t ex fs hpre]
      rfl
    | true =>
      rw [copyLoop_cons_pre fm s d e t ex fs hpre]
      cases hsd : copyStepDirs fm ex fs (destDirOf s d e) with
      | none => rfl
      | some pr =>
        obtain ⟨ex1, fs1⟩ := pr
        obtain ⟨hfiles, -, -⟩ := copyStepDirs_some fm ex fs _ ex1 fs1 hsd
        have hr1 : fs1.readFile p = fs.readFile p := by
          unfold FS.readFile
          rw [hfiles]
        dsimp only
        cases hcf : copyFile fm fs1 e (destFileOf s d e) with
        | none => exact hr1
        | some fs2 =>
          dsimp only
          obtain ⟨c, hrd, rfl⟩ := copyFile_some fm fs1 e _ fs2 hcf
          rw [ih ex1 _ p (fun e' he' => hp e' (List.mem_cons_of_mem e he'))]
          rw [readFile_writeFile_ne _ _ _ _ (hp e (List.mem_cons_self e t))]
          exact hr1

theorem copyLoop_dirs_super (fm : FaultModel) (s d : FsPath)
    (entries : List FsPath) :
    ∀ (ex : List FsPath) (fs : FS) (q : FsPath), q ∈ fs.dirs →
      q ∈ ((copyLoop fm s d entries ex fs).fs).dirs := by
  induction entries with
  | nil =>
    intro ex fs q hq
    exact hq
  | cons e t ih =>
    intro ex fs q hq
    cases hpre : s.isPrefixOf e with
    | false =>
      rw [copyLoop_cons_not_pre fm s d e t ex fs hpre]
      exact hq
    | true =>
      rw [copyLoop_cons_pre fm s d e t ex fs hpre]
      cases hsd : copyStepDirs fm ex fs (destDirOf s d e) with
      | none => exact hq
      | some pr =>
        obtain ⟨ex1, fs1⟩ := pr
        obtain ⟨-, ⟨l, hdirs, -⟩, -⟩ := copyStepDirs_some fm ex fs _ ex1 fs1 hsd
        have hq1 : q ∈ fs1.dirs := by
          rw [hdirs]
          exact List.mem_append_left _ hq
        dsimp only
        cases hcf : copyFile fm fs1 e (destFileOf s d e) with
        | none => exact hq1
        | some fs2 =>
          dsimp only
          obtain ⟨c, -, rfl⟩ := copyFile_some fm fs1 e _ fs2 hcf
          exact ih ex1 _ q hq1

theorem copyLoop_dirs_sub (fm : FaultModel) (s d : FsPath)
    (entries : List FsPath) :
    ∀ (ex : List FsPath) (fs : FS) (q : FsPath),
      q ∈ ((copyLoop fm s d entries ex fs).fs).dirs →
      q ∈ fs.dirs ∨ ∃ e ∈ entries, q ∈ prefixesOf (destDirOf s d e) := by
  induction entries with
  | nil =>
    intro ex fs q hq
    exact Or.inl hq
  | cons e t ih =>
    intro ex fs q hq
    cases hpre : s.isPrefixOf e with
    | false =>
      rw [copyLoop_cons_not_pre fm s d e t ex fs hpre] at hq
      exact Or.inl hq
    | true =>
      rw [copyLoop_cons_pre fm s d e t ex fs hpre] at hq
      cases hsd : copyStepDirs fm ex fs (destDirOf s d e) with
      | none =>
        rw [hsd] at hq
        exact Or.inl hq
      | some pr =>
        obtain ⟨ex1, fs1⟩ := pr
        rw [hsd] at hq
        obtain ⟨-, ⟨l, hdirs, hl⟩, -⟩ := copyStepDirs_some fm ex fs _ ex1 fs1 hsd
        dsimp only at hq
        have step1 : q ∈ fs1.dirs → q ∈ fs.dirs ∨ ∃ e' ∈ e :: t, q ∈ prefixesOf (destDirOf s d e') := by
          intro hq1
          rw [hdirs] at hq1
          rcases List.mem_append.mp hq1 with h | h
          · exact Or.inl h
          · exact Or.inr ⟨e, List.mem_cons_self e t, hl q h⟩
        cases hcf : copyFile fm fs1 e (destFileOf s d e) with
        | none =>
          rw [hcf] at hq
          exact step1 hq
        | some fs2 =>
          rw [hcf] at hq
          dsimp only at hq
          obtain ⟨c, -, rfl⟩ := copyFile_some fm fs1 e _ fs2 hcf
          rcases ih ex1 _ q hq with h | ⟨e', he', hpr⟩
          · exact step1 h
          · exact Or.inr ⟨e', List.mem_cons_of_mem e he', hpr⟩

theorem copyLoop_ok_isPrefixOf (fm : FaultModel) (s d : FsPath)
    (entries : List FsPath) :
    ∀ (ex : List FsPath) (fs : FS) (ex' : List FsPath) (fs' : FS),
      copyLoop fm s d entries ex fs = .ok ex' fs' →
      ∀ e ∈ entries, s.isPrefixOf e = true := by
  induction entries with
  | nil =>
    intro ex fs ex' fs' _ e he
    cases he
  | cons e t ih =>
    intro ex fs ex' fs' h e' he'
    cases hpre : s.isPrefixOf e with
    | false =>
      rw [copyLoop_cons_not_pre fm s d e t ex fs hpre] at h
      cases h
    | true =>
      rw [copyLoop_cons_pre fm s d e t ex fs hpre] at h
      rcases List.mem_cons.mp he' with rfl | he'
      · exact hpre
      · cases hsd : copyStepDirs fm ex fs (destDirOf s d e) with
        | none =>
          rw [hsd] at h
          cases h
        | some pr =>
          obtain ⟨ex1, fs1⟩ := pr
          rw [hsd] at h
          dsimp only at h
          cases hcf : copyFile fm fs1 e (destFileOf s d e) with
          | none =>
            rw [hcf] at h
            cases h
          | some fs2 =>
            rw [hcf] at h
            dsimp only at h
            exact ih ex1 fs2 ex' fs' h e' he'

theorem copyLoop_ok_destDir (fm : FaultModel) (s d : FsPath)
    (entries : List FsPath) (hd : d ≠ []) :
    ∀ (ex : List FsPath) (fs : FS) (ex' : List FsPath) (fs' : FS),
      (∀ p ∈ ex, DirIdem fm fs p) →
      copyLoop fm s d entries ex fs = .ok ex' fs' →
      ∀ e ∈ entries, destDirOf s d e ∈ fs'.dirs := by
  induction entries with
  | nil =>
    intro ex fs ex' fs' _ _ e he
    cases he
  | cons e t ih =>
    intro ex fs ex' fs' hinv h e' he'
    cases hpre : s.isPrefixOf e with
    | false =>
      rw [copyLoop_cons_not_pre fm s d e t ex fs hpre] at h
      cases h
    | true =>
      rw [copyLoop_cons_pre fm s d e t ex fs hpre] at h
      rcases copyStepDirs_vs_createDirAll fm ex fs (destDirOf s d e) hinv with
        ⟨h1, -⟩ | ⟨ex1, fs1, h1, -, hmem, hinv1⟩
      · rw [h1] at h
        cases h
      · rw [h1] at h
        dsimp only at h
        have hcdp : destDirOf s d e ∈ fs1.dirs := by
          rcases hinv1 _ hmem with hex | ⟨hnil, -⟩
          · exact hex
          · exact absurd (List.append_eq_nil.mp hnil).1 hd
        cases hcf : copyFile fm fs1 e (destFileOf s d e) with
        | none =>
          rw [hcf] at h
          cases h
        | some fs2 =>
          rw [hcf] at h
          dsimp only at h
          obtain ⟨c, -, rfl⟩ := copyFile_some fm fs1 e _ fs2 hcf
          rcases List.mem_cons.mp he' with rfl | he'
          · have h2 : destDirOf s d e' ∈ (fs1.writeFile (destFileOf s d e') c).dirs := hcdp
            have h3 := copyLoop_dirs_super fm s d t ex1 _ _ h2
            rw [h] at h3
            exact h3
          · exact ih ex1 _ ex' fs'
              (fun p hp => dirIdem_writeFile fm fs1 _ c p (hinv1 p hp)) h e' he'

theorem copyLoop_eq_naive (fm : FaultModel) (s d : FsPath)
    (entries : List FsPath) :
    ∀ (ex : List FsPath) (fs : FS),
      (∀ p ∈ ex, DirIdem fm fs p) →
      (copyLoop fm s d entries ex fs).toResult = copyLoopNaive fm s d entries fs := by
  induction entries with
  | nil =>
    intro ex fs _
    rfl
  | cons e t ih =>
    intro ex fs hinv
    cases hpre : s.isPrefixOf e with
    | false =>
      rw [copyLoop_cons_not_pre fm s d e t ex fs hpre,
        copyLoopNaive_cons_not_pre fm s d e t fs hpre]
      rfl
    | true =>
      rw [copyLoop_cons_pre fm s d e t ex fs hpre,
        copyLoopNaive_cons_pre fm s d e t fs hpre]
      rcases copyStepDirs_vs_createDirAll fm ex fs (destDirOf s d e) hinv with
        ⟨h1, h2⟩ | ⟨ex1, fs1, h1, h2, -, hinv1⟩
      · rw [h1, h2]
        rfl
      · rw [h1, h2]
        dsimp only
        cases hcf : copyFile fm fs1 e (destFileOf s d e) with
        | none => rfl
        | some fs2 =>
          dsimp only
          obtain ⟨c, -, rfl⟩ := copyFile_some fm fs1 e _ fs2 hcf
          exact ih ex1 _ (fun p hp => dirIdem_writeFile fm fs1 _ c p (hinv1 p hp))

theorem copyLoop_files_under (fm : FaultModel) (s d : FsPath)
    (entries : List FsPath) :
    ∀ (ex : List FsPath) (fs : FS) (p : FsPath),
      ((copyLoop fm s d entries ex fs).fs).readFile p ≠ none →
      fs.readFile p ≠ none ∨ d.isPrefixOf p = true := by
  induction entries with
  | nil =>
    intro ex fs p h
    exact Or.inl h
  | cons e t ih =>
    intro ex fs p h
    cases hpre : s.isPrefixOf e with
    | false =>
      rw [copyLoop_cons_not_pre fm s d e t ex fs hpre] at h
      exact Or.inl h
    | true =>
      rw [copyLoop_cons_pre fm s d e t ex fs hpre] at h
      cases hsd : copyStepDirs fm ex fs (destDirOf s d e) with
      | none =>
        rw [hsd] at h
        exact Or.inl h
      | some pr =>
        obtain ⟨ex1, fs1⟩ := pr
        rw [hsd] at h
        obtain ⟨hfiles, -, -⟩ := copyStepDirs_some fm ex fs _ ex1 fs1 hsd
        have hread1 : ∀ q, fs1.readFile q = fs.readFile q := by
          intro q
          unfold FS.readFile
          rw [hfiles]
        dsimp only at h
        cases hcf : copyFile fm fs1 e (destFileOf s d e) with
        | none =>
          rw [hcf] at h
          exact Or.inl (by rw [← hread1 p]; exact h)
        | some fs2 =>
          rw [hcf] at h
          dsimp only at h
          obtain ⟨c, -, rfl⟩ := copyFile_some fm fs1 e _ fs2 hcf
          rcases ih ex1 _ p h with h2 | h2
          · by_cases hdp : destFileOf s d e = p
            · refine Or.inr ?_
              rw [← hdp]
              unfold destFileOf destDirOf
              rw [List.append_assoc]
              exact isPrefixOf_append_self d _
            · rw [readFile_writeFile_ne fs1 _ p c hdp, hread1 p] at h2
              exact Or.inl h2
          · exact Or.inr h2

theorem copyLoop_ok_last_write (fm : FaultModel) (s d : FsPath) :
    ∀ (l₁ : List FsPath) (e : FsPath) (l₂ ex : List FsPath) (fs : FS)
      (ex' : List FsPath) (fs' : FS),
      copyLoop fm s d (l₁ ++ e :: l₂) ex fs = .ok ex' fs' →
      (∀ e' ∈ l₂, destFileOf s d e' ≠ destFileOf s d e) →
      (∀ e₁ ∈ l₁, destFileOf s d e₁ ≠ e) →
      fs'.readFile (destFileOf s d e) = fs.readFile e := by
  intro l₁
  induction l₁ with
  | nil =>
    intro e l₂ ex fs ex' fs' h hl₂ _
    rw [List.nil_append] at h
    cases hpre : s.isPrefixOf e with
    | false =>
      rw [copyLoop_cons_not_pre fm s d e l₂ ex fs hpre] at h
      cases h
    | true =>
      rw [copyLoop_cons_pre fm s d e l₂ ex fs hpre] at h
      cases hsd : copyStepDirs fm ex fs (destDirOf s d e) with
      | none =>
        rw [hsd] at h
        cases h
      | some pr =>
        obtain ⟨ex1, fs1⟩ := pr
        rw [hsd] at h
        dsimp only at h
        obtain ⟨hfiles, -, -⟩ := copyStepDirs_some fm ex fs _ ex1 fs1 hsd
        cases hcf : copyFile fm fs1 e (destFileOf s d e) with
        | none =>
          rw [hcf] at h
          cases h
        | some fs2 =>
          rw [hcf] at h
          dsimp only at h
          obtain ⟨c, hrd, rfl⟩ := copyFile_some fm fs1 e _ fs2 hcf
          have hframe := copyLoop_readFile_frame fm s d l₂ ex1
            (fs1.writeFile (destFileOf s d e) c) (destFileOf s d e) hl₂
          rw [h] at hframe
          simp only [LoopOut.fs] at hframe
          rw [hframe, readFile_writeFile_self, ← hrd]
          unfold FS.readFile
          rw [hfiles]
  | cons a t ih =>
    intro e l₂ ex fs ex' fs' h hl₂ hl₁
    rw [List.cons_append] at h
    cases hpre : s.isPrefixOf a with
    | false =>
      rw [copyLoop_cons_not_pre fm s d a (t ++ e :: l₂) ex fs hpre] at h
      cases h
    | true =>
      rw [copyLoop_cons_pre fm s d a (t ++ e :: l₂) ex fs hpre] at h
      cases hsd : copyStepDirs fm ex fs (destDirOf s d a) with
      | none =>
        rw [hsd] at h
        cases h
      | some pr =>
        obtain ⟨ex1, fs1⟩ := pr
        rw [hsd] at h
        dsimp only at h
        obtain ⟨hfiles, -, -⟩ := copyStepDirs_some fm ex fs _ ex1 fs1 hsd
        cases hcf : copyFile fm fs1 a (destFileOf s d a) with
        | none =>
          rw [hcf] at h
          cases h
        | some fs2 =>
          rw [hcf] at h
          dsimp only at h
          obtain ⟨c, -, rfl⟩ := copyFile_some fm fs1 a _ fs2 hcf
          have hrec := ih e l₂ ex1 _ ex' fs' h hl₂
            (fun e₁ he₁ => hl₁ e₁ (List.mem_cons_of_mem a he₁))
          rw [hrec, readFile_writeFile_ne fs1 _ e c (hl₁ a (List.mem_cons_self a t))]
          unfold FS.readFile
          rw [hfiles]

theorem loopOut_toResult_fs (r : LoopOut) : (r.toResult).fs = r.fs := by
  cases r <;> rfl

/-! ### Facts about the include-path expander -/

theorem includeDirsGo_acc (expand : String → Option (List (Option String)))
    (sdk : String) (fmt : IncludeDirFormat) :
    ∀ (rest acc : List String),
      includeDirsGo expand sdk fmt rest acc =
        (includeDirsGo expand sdk fmt rest []).map (fun l => acc ++ l) := by
  intro rest
  induction rest with
  | nil =>
    intro acc
    simp [includeDirsGo]
  | cons p t ih =>
    intro acc
    simp only [includeDirsGo]
    cases expand (sdk ++ p) with
    | none => rfl
    | some ms =>
      dsimp only
      rw [List.nil_append]
      conv_lhs => rw [ih]
      conv_rhs => rw [ih]
      cases includeDirsGo expand sdk fmt t [] with
      | none => rfl
      | some l => simp

theorem includeDirsGo_congr (expand₁ expand₂ : String → Option (List (Option String)))
    (sdk : String) (fmt : IncludeDirFormat) :
    ∀ (rest acc : List String),
      (∀ p ∈ rest, expand₁ (sdk ++ p) = expand₂ (sdk ++ p)) →
      includeDirsGo expand₁ sdk fmt rest acc = includeDirsGo expand₂ sdk fmt rest acc := by
  intro rest
  induction rest with
  | nil =>
    intro acc _
    rfl
  | cons p t ih =>
    intro acc hagree
    simp only [includeDirsGo]
    rw [hagree p (List.mem_cons_self p t)]
    cases expand₂ (sdk ++ p) with
    | none => rfl
    | some ms =>
      dsimp only
      exact ih _ (fun q hq => hagree q (List.mem_cons_of_mem p hq))

theorem get_sdk_include_dirs_eq (expand : String → Option (List (Option String)))
    (sdk : String) (fmt : IncludeDirFormat) :
    ∀ patterns : List String,
      get_sdk_include_dirs expand patterns sdk fmt =
        if patterns.all (fun p => (expand (sdk ++ p)).isSome) then
          some (patterns.flatMap (fun p =>
            ((expand (sdk ++ p)).getD []).filterMap (fun e =>
              e.map (fun m => formatDir fmt (pathJoinStr sdk m)))))
        else none := by
  intro patterns
  induction patterns with
  | nil => simp [get_sdk_include_dirs, includeDirsGo]
  | cons p t ih =>
    unfold get_sdk_include_dirs at *
    simp only [includeDirsGo, List.all_cons, List.flatMap_cons]
    cases hx : expand (sdk ++ p) with
    | none => simp
    | some ms =>
      dsimp only
      rw [List.nil_append, includeDirsGo_acc expand sdk fmt t, ih]
      by_cases hall : (t.all fun q => (expand (sdk ++ q)).isSome) = true
      · simp [hall]
      · simp [hall]

theorem filterMap_map_some_collapse (ms : List (Option String)) (g : String → String) :
    ((ms.filterMap id).map some).filterMap (fun e => e.map g)
      = ms.filterMap (fun e => e.map g) := by
  induction ms with
  | nil => rfl
  | cons e t ih =>
    cases e <;> simp_all [List.filterMap_cons]

theorem includeDirsGo_drop_errs (expand : String → Option (List (Option String)))
    (sdk : String) (fmt : IncludeDirFormat) :
    ∀ (rest acc : List String),
      includeDirsGo expand sdk fmt rest acc =
        includeDirsGo (fun s => (expand s).map (fun ms => (ms.filterMap id).map some))
          sdk fmt rest acc := by
  intro rest
  induction rest with
  | nil =>
    intro acc
    rfl
  | cons p t ih =>
    intro acc
    simp only [includeDirsGo]
    cases hx : expand (sdk ++ p) with
    | none => rfl
    | some ms =>
      simp only [Option.map_some']
      rw [filterMap_map_some_collapse]
      exact ih _

/-! ### Claim theorems for the directory copier -/

/-- C1: on every successful copy, each matched file is placed at the
destination joined with its containing directory relative to the canonical
source joined with its file name (with overwrite semantics: the content at
that path is the content of the last matched entry mapping there), the
destination directory of every matched entry exists when the call returns,
and every directory existing afterwards either pre-existed or is an
ancestor of some matched entry's destination directory — the hierarchy is
replicated with no extra or missing intermediate directories. -/
theorem copy_structure_preservation (fm : FaultModel) (env : GlobEnv)
    (destination source_path : FsPath) (fs fs' : FS)
    (hcan : env.canonical = some source_path)
    (hdst : destination ≠ [])
    (hok : copy_dir_with_pattern fm env destination fs = .ok fs')
    (hovl : ∀ e₁ ∈ env.entries.filterMap id, ∀ e₂ ∈ env.entries.filterMap id,
      destFileOf source_path destination e₂ ≠ e₁) :
    (∀ (l₁ : List FsPath) (e : FsPath) (l₂ : List FsPath),
      env.entries.filterMap id = l₁ ++ e :: l₂ →
      (∀ e' ∈ l₂,
        destFileOf source_path destination e' ≠ destFileOf source_path destination e) →
      fs'.readFile (destFileOf source_path destination e) = fs.readFile e)
    ∧ (∀ e ∈ env.entries.filterMap id,
        destDirOf source_path destination e ∈ fs'.dirs)
    ∧ (∀ q ∈ fs'.dirs, q ∈ fs.dirs ∨
        ∃ e ∈ env.entries.filterMap id,
          q.isPrefixOf (destDirOf source_path destination e) = true) := by
  unfold copy_dir_with_pattern at hok
  rw [hcan] at hok
  dsimp only at hok
  by_cases hpk : env.parseOk = true
  · rw [if_pos hpk] at hok
    cases hl : copyLoop fm source_path destination (env.entries.filterMap id) [] fs with
    | panicked f =>
      rw [hl] at hok
      simp [LoopOut.toResult] at hok
    | error f =>
      rw [hl] at hok
      simp [LoopOut.toResult] at hok
    | ok ex1 f =>
      rw [hl] at hok
      dsimp only [LoopOut.toResult] at hok
      cases hok
      refine ⟨?_, ?_, ?_⟩
      · intro l₁ e l₂ hsplit hlast
        rw [hsplit] at hl
        refine copyLoop_ok_last_write fm source_path destination l₁ e l₂ [] fs ex1 fs' hl hlast ?_
        intro e₁ he₁
        exact hovl e
          (by rw [hsplit]; exact List.mem_append_right _ (List.mem_cons_self e l₂))
          e₁ (by rw [hsplit]; exact List.mem_append_left _ he₁)
      · intro e he
        exact copyLoop_ok_destDir fm source_path destination _ hdst [] fs ex1 fs'
          (fun p hp => absurd hp (List.not_mem_nil p)) hl e he
      · intro q hq
        rcases copyLoop_dirs_sub fm source_path destination _ [] fs q
            (by rw [hl]; exact hq) with h2 | ⟨e, he, hpr⟩
        · exact Or.inl h2
        · exact Or.inr ⟨e, he, mem_prefixesOf q _ hpr⟩
  · rw [if_neg hpk] at hok
    cases hok

/-- Witness for C1: a concrete successful two-entry copy. -/
theorem copy_structure_preservation_witness :
    copy_dir_with_pattern ⟨fun _ => false, fun _ _ => false⟩
        ⟨some ["s"], true, [some ["s", "a", "f.txt"], some ["s", "g.txt"]]⟩ ["d"]
        ⟨[["s"], ["s", "a"]], [(["s", "a", "f.txt"], 1), (["s", "g.txt"], 2)]⟩ =
      .ok ⟨[["s"], ["s", "a"], ["d"], ["d", "a"]],
        [(["d", "g.txt"], 2), (["d", "a", "f.txt"], 1),
          (["s", "a", "f.txt"], 1), (["s", "g.txt"], 2)]⟩
    ∧ FS.readFile ⟨[["s"], ["s", "a"], ["d"], ["d", "a"]],
        [(["d", "g.txt"], 2), (["d", "a", "f.txt"], 1),
          (["s", "a", "f.txt"], 1), (["s", "g.txt"], 2)]⟩ ["d", "a", "f.txt"] = some 1
    ∧ ["d", "a"] ∈ (FS.mk [["s"], ["s", "a"], ["d"], ["d", "a"]]
        [(["d", "g.txt"], 2), (["d", "a", "f.txt"], 1),
          (["s", "a", "f.txt"], 1), (["s", "g.txt"], 2)]).dirs := by
  have hrun : copy_dir_with_pattern ⟨fun _ => false, fun _ _ => false⟩
      ⟨some ["s"], true, [some ["s", "a", "f.txt"], some ["s", "g.txt"]]⟩ ["d"]
      ⟨[["s"], ["s", "a"]], [(["s", "a", "f.txt"], 1), (["s", "g.txt"], 2)]⟩ =
      .ok ⟨[["s"], ["s", "a"], ["d"], ["d", "a"]],
        [(["d", "g.txt"], 2), (["d", "a", "f.txt"], 1),
          (["s", "a", "f.txt"], 1), (["s", "g.txt"], 2)]⟩ := by decide
  have h := copy_structure_preservation ⟨fun _ => false, fun _ _ => false⟩
      ⟨some ["s"], true, [some ["s", "a", "f.txt"], some ["s", "g.txt"]]⟩ ["d"] ["s"]
      ⟨[["s"], ["s", "a"]], [(["s", "a", "f.txt"], 1), (["s", "g.txt"], 2)]⟩
      ⟨[["s"], ["s", "a"], ["d"], ["d", "a"]],
        [(["d", "g.txt"], 2), (["d", "a", "f.txt"], 1),
          (["s", "a", "f.txt"], 1), (["s", "g.txt"], 2)]⟩
      rfl (by decide) hrun (by decide)
  refine ⟨hrun, ?_, ?_⟩
  · exact (h.1 [] ["s", "a", "f.txt"] [["s", "g.txt"]] (by decide) (by decide)).trans
      (by decide)
  · exact h.2.1 ["s", "a", "f.txt"] (by decide)

/-- C2: every file the copier ever writes lies under the destination
directory, and a successful run implies every flattened glob entry lay
under the canonical source root — an entry outside the root is rejected by
the `strip_prefix` unwrap (a panic), never silently copied outside the
destination tree. -/
theorem copy_containment (fm : FaultModel) (env : GlobEnv)
    (destination : FsPath) (fs : FS) :
    (∀ p : FsPath,
      ((copy_dir_with_pattern fm env destination fs).fs).readFile p ≠ none →
      fs.readFile p ≠ none ∨ destination.isPrefixOf p = true)
    ∧ (∀ (source_path : FsPath) (fs' : FS),
        env.canonical = some source_path →
        copy_dir_with_pattern fm env destination fs = .ok fs' →
        ∀ e ∈ env.entries.filterMap id, source_path.isPrefixOf e = true) := by
  constructor
  · intro p hp
    unfold copy_dir_with_pattern at hp
    cases hc : env.canonical with
    | none =>
      rw [hc] at hp
      exact Or.inl hp
    | some s =>
      rw [hc] at hp
      dsimp only at hp
      by_cases hpk : env.parseOk = true
      · rw [if_pos hpk] at hp
        rw [loopOut_toResult_fs] at hp
        exact copyLoop_files_under fm s destination _ [] fs p hp
      · rw [if_neg hpk] at hp
        exact Or.inl hp
  · intro s fs' hcan hok e he
    unfold copy_dir_with_pattern at hok
    rw [hcan] at hok
    dsimp only at hok
    by_cases hpk : env.parseOk = true
    · rw [if_pos hpk] at hok
      cases hl : copyLoop fm s destination (env.entries.filterMap id) [] fs with
      | panicked f =>
        rw [hl] at hok
        simp [LoopOut.toResult] at hok
      | error f =>
        rw [hl] at hok
        simp [LoopOut.toResult] at hok
      | ok ex1 f =>
        exact copyLoop_ok_isPrefixOf fm s destination _ [] fs ex1 f hl e he
    · rw [if_neg hpk] at hok
      cases hok

/-- Witness for C2: a concrete successful run whose single entry lies under
the source root. -/
theorem copy_containment_witness :
    copy_dir_with_pattern ⟨fun _ => false, fun _ _ => false⟩
        ⟨some ["s"], true, [some ["s", "a", "f.txt"]]⟩ ["d"]
        ⟨[["s"]], [(["s", "a", "f.txt"], 1)]⟩ =
      .ok ⟨[["s"], ["d"], ["d", "a"]], [(["d", "a", "f.txt"], 1), (["s", "a", "f.txt"], 1)]⟩
    ∧ (["s"] : FsPath).isPrefixOf ["s", "a", "f.txt"] = true := by
  have hrun : copy_dir_with_pattern ⟨fun _ => false, fun _ _ => false⟩
      ⟨some ["s"], true, [some ["s", "a", "f.txt"]]⟩ ["d"]
      ⟨[["s"]], [(["s", "a", "f.txt"], 1)]⟩ =
      .ok ⟨[["s"], ["d"], ["d", "a"]],
        [(["d", "a", "f.txt"], 1), (["s", "a", "f.txt"], 1)]⟩ := by decide
  exact ⟨hrun, (copy_containment ⟨fun _ => false, fun _ _ => false⟩
      ⟨some ["s"], true, [some ["s", "a", "f.txt"]]⟩ ["d"]
      ⟨[["s"]], [(["s", "a", "f.txt"], 1)]⟩).2 ["s"] _ rfl hrun
      ["s", "a", "f.txt"] (by decide)⟩

/-- C3: the copy loop over a split entry list processes the prefix first
and continues with the suffix only when the prefix succeeded; a prefix
error (or panic) is returned unchanged whatever entries follow, so the
operation returns Ok exactly when every entry processes without failure
and otherwise stops at the first hard error. -/
theorem copy_first_error_stops (fm : FaultModel) (s d : FsPath)
    (l₁ l₂ ex : List FsPath) (fs : FS) :
    copyLoop fm s d (l₁ ++ l₂) ex fs =
      match copyLoop fm s d l₁ ex fs with
      | .ok ex1 fs1 => copyLoop fm s d l₂ ex1 fs1
      | .error fs1 => .error fs1
      | .panicked fs1 => .panicked fs1 :=
  copyLoop_append_eq fm s d l₁ l₂ ex fs

/-- C4: when the source cannot be canonicalized the copier panics at once,
with the filesystem unchanged: no destination-side effect precedes the
failure. -/
theorem copy_missing_source_no_side_effect (fm : FaultModel) (env : GlobEnv)
    (destination : FsPath) (fs : FS) (h : env.canonical = none) :
    copy_dir_with_pattern fm env destination fs = .panicked fs := by
  unfold copy_dir_with_pattern
  rw [h]

/-- Witness for C4 at a concrete uncanonicalizable source. -/
theorem copy_missing_source_no_side_effect_witness :
    (GlobEnv.mk none true [some ["s", "a.txt"]]).canonical = none
    ∧ copy_dir_with_pattern ⟨fun _ => false, fun _ _ => false⟩
        ⟨none, true, [some ["s", "a.txt"]]⟩ ["d"] ⟨[], []⟩ = .panicked ⟨[], []⟩ :=
  ⟨rfl, copy_missing_source_no_side_effect ⟨fun _ => false, fun _ _ => false⟩
    ⟨none, true, [some ["s", "a.txt"]]⟩ ["d"] ⟨[], []⟩ rfl⟩

/-- C5: the Destination Directory Set is purely a fast-path optimization:
the copier is observably equal — same outcome and same final filesystem —
to the naive variant that performs idempotent create-if-missing directory
creation for every matched entry. -/
theorem copy_dir_with_pattern_eq_naive (fm : FaultModel) (env : GlobEnv)
    (destination : FsPath) (fs : FS) :
    copy_dir_with_pattern fm env destination fs =
      copy_dir_with_pattern_naive fm env destination fs := by
  unfold copy_dir_with_pattern copy_dir_with_pattern_naive
  cases env.canonical with
  | none => rfl
  | some s =>
    dsimp only
    by_cases hpk : env.parseOk = true
    · rw [if_pos hpk, if_pos hpk]
      exact copyLoop_eq_naive fm s destination (env.entries.filterMap id) [] fs
        (fun p hp => absurd hp (List.not_mem_nil p))
    · rw [if_neg hpk, if_neg hpk]

/-- C6: an individual glob-match resolution failure never aborts the
operation: the copier behaves as if the failed entries were absent, and the
include-dir expander's output is unchanged when every failed match is
dropped from the oracle — the remaining entries are still processed. -/
theorem soft_failures_skipped :
    (∀ (fm : FaultModel) (env : GlobEnv) (destination : FsPath) (fs : FS),
      copy_dir_with_pattern fm env destination fs =
        copy_dir_with_pattern fm
          ⟨env.canonical, env.parseOk, (env.entries.filterMap id).map some⟩
          destination fs)
    ∧ (∀ (expand : String → Option (List (Option String)))
        (patterns : List String) (sdk : String) (fmt : IncludeDirFormat),
        get_sdk_include_dirs expand patterns sdk fmt =
          get_sdk_include_dirs
            (fun s => (expand s).map (fun ms => (ms.filterMap id).map some))
            patterns sdk fmt) := by
  constructor
  · intro fm env destination fs
    obtain ⟨c, pk, es⟩ := env
    unfold copy_dir_with_pattern
    cases c with
    | none => rfl
    | some s =>
      dsimp only
      have hfm : ((es.filterMap id).map some).filterMap id = es.filterMap id := by simp
      rw [hfm]
  · intro expand patterns sdk fmt
    exact includeDirsGo_drop_errs expand sdk fmt patterns []

/-! ### Claim theorems for the include-path expander -/

/-- C7: the glob expression for each pattern is the plain string
concatenation of the SDK root and the pattern — the output is unchanged
under any oracle agreeing on exactly those concatenated strings, with no
separator inserted — while each successfully matched path is combined with
the SDK root by path-joining: the full output is characterized with
`pathJoinStr` on the match and plain `++` on the query. -/
theorem include_dirs_concat_vs_join (expand : String → Option (List (Option String)))
    (patterns : List String) (sdk : String) (fmt : IncludeDirFormat) :
    (get_sdk_include_dirs expand patterns sdk fmt =
      get_sdk_include_dirs
        (fun s => if patterns.any (fun p => sdk ++ p == s) then expand s else none)
        patterns sdk fmt)
    ∧ (get_sdk_include_dirs expand patterns sdk fmt =
        if patterns.all (fun p => (expand (sdk ++ p)).isSome) then
          some (patterns.flatMap (fun p =>
            ((expand (sdk ++ p)).getD []).filterMap (fun e =>
              e.map (fun m => formatDir fmt (pathJoinStr sdk m)))))
        else none) := by
  constructor
  · exact includeDirsGo_congr expand _ sdk fmt patterns []
      (fun p hp => by
        have hany : (patterns.any fun q => sdk ++ q == sdk ++ p) = true :=
          List.any_eq_true.mpr ⟨p, hp, by simp⟩
        rw [hany]
        simp)
  · exact get_sdk_include_dirs_eq expand sdk fmt patterns

/-- C8: for the same oracle, pattern list and SDK root, the CLANG-formatted
output is exactly the PLAIN output with the compiler-flag marker prepended
to every entry: path portions and order are identical. -/
theorem include_dirs_format_toggle (expand : String → Option (List (Option String)))
    (patterns : List String) (sdk : String) :
    get_sdk_include_dirs expand patterns sdk IncludeDirFormat.CLANG =
      (get_sdk_include_dirs expand patterns sdk IncludeDirFormat.PLAIN).map
        (List.map (fun s => "-I" ++ s)) := by
  rw [get_sdk_include_dirs_eq, get_sdk_include_dirs_eq]
  by_cases hall : (patterns.all fun p => (expand (sdk ++ p)).isSome) = true
  · simp only [hall, if_true, Option.map_some']
    congr 1
    rw [List.map_flatMap]
    apply List.flatMap_congr
    intro p _
    rw [List.map_filterMap]
    apply List.filterMap_congr
    intro e _
    cases e <;> rfl
  · simp [hall]

/-- C9: the output is a flattened ordered sequence: over a concatenation of
pattern lists it is the concatenation of the two outputs (all matches of
earlier patterns precede all matches of later ones, duplicates kept), and
for a single pattern it is exactly that pattern's match list in yield
order. -/
theorem include_dirs_ordering (expand : String → Option (List (Option String)))
    (sdk : String) (fmt : IncludeDirFormat) (ps₁ ps₂ : List String) (p : String) :
    (get_sdk_include_dirs expand (ps₁ ++ ps₂) sdk fmt =
      (get_sdk_include_dirs expand ps₁ sdk fmt).bind (fun a =>
        (get_sdk_include_dirs expand ps₂ sdk fmt).map (fun b => a ++ b)))
    ∧ (get_sdk_include_dirs expand [p] sdk fmt =
        (expand (sdk ++ p)).map (fun ms => ms.filterMap (fun e =>
          e.map (fun m => formatDir fmt (pathJoinStr sdk m))))) := by
  constructor
  · rw [get_sdk_include_dirs_eq, get_sdk_include_dirs_eq, get_sdk_include_dirs_eq]
    by_cases h1 : (ps₁.all fun q => (expand (sdk ++ q)).isSome) = true
    · by_cases h2 : (ps₂.all fun q => (expand (sdk ++ q)).isSome) = true
      · simp [h1, h2, List.all_append, List.flatMap_append]
      · simp [h1, h2, List.all_append]
    · simp [h1, List.all_append]
  · rw [get_sdk_include_dirs_eq]
    cases hx : expand (sdk ++ p) with
    | none => simp [hx]
    | some ms => simp [hx]

/-- C10: a pattern whose glob expression fails to parse makes
`get_sdk_include_dirs` panic (the `expect` aborts the whole call) even
though the same oracle succeeds on the remaining patterns; per-match
resolution failures are skipped but pattern-parse failures are not. -/
theorem include_dirs_invalid_pattern_aborts :
    get_sdk_include_dirs
        (fun s => if s == "sdk/good/**" then some [some "sdk/good/include"] else none)
        ["/good/**", "/bad/[**"] "sdk" IncludeDirFormat.PLAIN = none
    ∧ get_sdk_include_dirs
        (fun s => if s == "sdk/good/**" then some [some "sdk/good/include"] else none)
        ["/good/**"] "sdk" IncludeDirFormat.PLAIN = some ["sdk/sdk/good/include"] := by
  constructor
  · decide
  · decide
